import Mathlib

/-!
Verification of the convenience layer of `onnx_ir._convenience`
(`src/onnx_ir/_convenience/__init__.py`): the attribute binder
(`_infer_attribute_type`, `convert_attribute`), the graph rewiring protocol
(`replace_all_uses_with`, `create_value_mapping`, the metadata-copy step of
`replace_nodes_and_values`) and the constant resolver (`get_const_tensor`).

The Python functions are shallowly embedded as executable Lean functions.
Python objects that can appear as attribute payloads are modelled by the
inductive `PyVal`; the storage layer (`_core.Value`, `_core.Node`,
`_core.Graph`) and the external codec (`serde`, numpy) are modelled from
their interface as used by this module.
-/

namespace OnnxIR

/-- The attribute type tags of `_enums.AttributeType` used by this module. -/
inductive AttributeType where
  | UNDEFINED
  | FLOAT
  | INT
  | STRING
  | TENSOR
  | GRAPH
  | FLOATS
  | INTS
  | STRINGS
  | TENSORS
  | GRAPHS
  | TYPE_PROTO
  | TYPE_PROTOS
  deriving DecidableEq, Repr

/-- An opaque model of a Python `float` / numpy `float32` payload.  The claims
never compute with float arithmetic, only move values around, so a float is an
abstract token identified by an integer code. -/
structure F32 where
  code : Int
  deriving DecidableEq, Repr

/-- Modelled from the spec: numpy's numeric coercion of a Python `int` into a
`float32` element (external collaborator); abstractly, the token of the int. -/
def intToF32 (i : Int) : F32 := ⟨i⟩

/-- Modelled from the spec: numpy's numeric coercion of a float into an
`int64` element (external collaborator); abstractly, the token's code. -/
def f32ToInt (f : F32) : Int := f.code

/-- Element dtypes of the tensors this module constructs. -/
inductive DType where
  | FLOAT
  | INT64
  | STRING
  | other (n : Nat)
  deriving DecidableEq, Repr

/-- Tensor payload data. -/
inductive TData where
  | f32 (xs : List F32)
  | i64 (xs : List Int)
  | bytes (xs : List String)
  | raw (n : Nat)
  deriving DecidableEq, Repr

/-- An in-memory tensor (`_core.Tensor` / any `TensorProtocol` object):
dtype, data, shape and an optional name. -/
structure Tensor where
  dtype : DType
  data : TData
  shape : List Nat
  name : Option String
  deriving DecidableEq, Repr

/-- An externally-encoded tensor (`onnx.TensorProto`).  Modelled from the
spec: the codec is an external collaborator, so a proto is identified with
the native tensor it denotes. -/
structure TensorProto where
  denoted : Tensor
  deriving DecidableEq, Repr

/-- Modelled from the spec: `serde.deserialize_tensor`, the external decoder
from the wire format to the native in-memory tensor. -/
def serde_deserialize_tensor (p : TensorProto) : Tensor := p.denoted

/-- A native subgraph (`_core.Graph`) as seen by the attribute binder: an
opaque identifier plus its node count.  `_core.Graph` subclasses
`Sequence[Node]`, so for `isinstance(attr, Sequence)` checks a graph behaves
as a sequence of its (opaque) nodes. -/
structure GraphIR where
  gid : Nat
  numNodes : Nat
  deriving DecidableEq, Repr

/-- An externally-encoded graph (`onnx.GraphProto`); as for tensors, it is
identified with the graph it denotes. -/
structure GraphProto where
  denotedGraph : GraphIR
  deriving DecidableEq, Repr

/-- Modelled from the spec: `serde.deserialize_graph`, the external decoder
for subgraphs. -/
def serde_deserialize_graph (p : GraphProto) : GraphIR := p.denotedGraph

/-- A type-descriptor object (`_core.TensorType`, `_core.SequenceType`,
`_core.OptionalType`, or any `TypeProtocol`). -/
inductive TypeIR where
  | tensorType (d : DType)
  | otherType (n : Nat)
  deriving DecidableEq, Repr

mutual

/-- A Python object that can be handed to the attribute binder
(`SupportedAttrTypes`), plus `otherObj` for objects matching none of the
`isinstance` checks (e.g. a `Node` yielded when iterating a `Graph`). -/
inductive PyVal where
  | none
  | int (i : Int)
  | float (f : F32)
  | str (s : String)
  | attr (a : AttrRec)
  | tensor (t : Tensor)
  | tensorProto (p : TensorProto)
  | graph (g : GraphIR)
  | graphProto (p : GraphProto)
  | typeDesc (t : TypeIR)
  | otherObj (n : Nat)
  | seq (xs : List PyVal)

/-- A `_core.Attr` record: name, type tag, stored value, and whether the
attribute is a deferred reference (`is_ref`). -/
inductive AttrRec where
  | mk (name : String) (type : AttributeType) (value : PyVal) (ref : Bool)

end

/-- The stored name of an attribute record. -/
def AttrRec.name : AttrRec → String
  | .mk n _ _ _ => n

/-- The stored type tag of an attribute record. -/
def AttrRec.type : AttrRec → AttributeType
  | .mk _ t _ _ => t

/-- The stored value of an attribute record. -/
def AttrRec.value : AttrRec → PyVal
  | .mk _ _ v _ => v

/-- Whether the attribute is a deferred reference (`Attr.is_ref()`). -/
def AttrRec.isRef : AttrRec → Bool
  | .mk _ _ _ r => r

/-- `isinstance(x, int)`. -/
def PyVal.isInt : PyVal → Bool
  | .int _ => true
  | _ => false

/-- `isinstance(x, float)` (a Python `int` is not a `float`). -/
def PyVal.isFloat : PyVal → Bool
  | .float _ => true
  | _ => false

/-- `isinstance(x, str)`. -/
def PyVal.isStr : PyVal → Bool
  | .str _ => true
  | _ => false

/-- `isinstance(x, (_core.TensorBase, onnx.TensorProto, _protocols.TensorProtocol))`. -/
def PyVal.isTensorLike : PyVal → Bool
  | .tensor _ => true
  | .tensorProto _ => true
  | _ => false

/-- `isinstance(x, (_core.Graph, onnx.GraphProto, _protocols.GraphProtocol))`. -/
def PyVal.isGraphLike : PyVal → Bool
  | .graph _ => true
  | .graphProto _ => true
  | _ => false

/-- `isinstance(x, (_core.TensorType, _core.SequenceType, _core.OptionalType,
_protocols.TypeProtocol))`. -/
def PyVal.isTypeDesc : PyVal → Bool
  | .typeDesc _ => true
  | _ => false

/-- `isinstance(x, Sequence)` together with the elements iteration yields:
a list/tuple yields its elements and a `_core.Graph` (which subclasses
`Sequence[Node]`) yields its nodes, opaque to every `isinstance` check.
Strings never reach a sequence check in `_infer_attribute_type` because the
`str` rule fires first, so they are not given elements here. -/
def PyVal.seqElems : PyVal → Option (List PyVal)
  | .seq xs => some xs
  | .graph g => some (List.replicate g.numNodes (.otherObj 0))
  | _ => Option.none

/-- `isinstance(x, Sequence) and all(p(e) for e in x)`: false for
non-sequences, and vacuously true for empty sequences (`all([]) == True`). -/
def PyVal.seqAll (p : PyVal → Bool) (x : PyVal) : Bool :=
  match x.seqElems with
  | some l => l.all p
  | Option.none => false

/-- `_infer_attribute_type` (source lines 51-99): infer the attribute type of
a Python object by the fixed chain of `isinstance` checks, or raise
`TypeError` when nothing matches. -/
def _infer_attribute_type (attr : PyVal) : Except String AttributeType :=
  if attr.isInt then .ok .INT
  else if attr.isFloat then .ok .FLOAT
  else if attr.isStr then .ok .STRING
  else match attr with
  | .attr a => .ok a.type
  | _ =>
    if attr.seqAll PyVal.isInt then .ok .INTS
    else if attr.seqAll PyVal.isFloat then .ok .FLOATS
    else if attr.seqAll PyVal.isStr then .ok .STRINGS
    else if attr.isTensorLike then .ok .TENSOR
    else if attr.seqAll PyVal.isTensorLike then .ok .TENSORS
    else if attr.isGraphLike then .ok .GRAPH
    else if attr.seqAll PyVal.isGraphLike then .ok .GRAPHS
    else if attr.isTypeDesc then .ok .TYPE_PROTO
    else if attr.seqAll PyVal.isTypeDesc then .ok .TYPE_PROTOS
    else .error "Unsupported attribute type"

/-- `convert_attribute` (source lines 102-185): convert a Python object into
a `_core.Attr`.  The `AttrInt64` &c. constructors are `Attr(name, TAG, value)`
records storing the given object; in the `TENSORS` branch the source appends
`_core.AttrTensor(name, serde.deserialize_tensor(t))` — an `Attr` record, not
a tensor — for externally-encoded elements.  A tag whose payload matches no
branch (e.g. `TENSOR` with a non-tensor payload) falls through every
remaining `if` to the final `TypeError`. -/
def convert_attribute (name : String) (attr : PyVal)
    (attr_type : Option AttributeType) : Except String AttrRec :=
  match attr with
  | .none =>
    match attr_type with
    | Option.none => .error "attr_type must be provided when attr is None"
    | some t => .ok (.mk name t .none false)
  | .attr a =>
    if a.name ≠ name then
      .error "Attribute name does not match provided name"
    else
      match attr_type with
      | some t =>
        if a.type ≠ t then
          .error "Attribute type does not match provided type"
        else .ok a
      | Option.none => .ok a
  | _ => do
    let t ← match attr_type with
      | some t => pure t
      | Option.none => _infer_attribute_type attr
    if t = .INT then .ok (.mk name .INT attr false)
    else if t = .FLOAT then .ok (.mk name .FLOAT attr false)
    else if t = .STRING then .ok (.mk name .STRING attr false)
    else if t = .INTS then .ok (.mk name .INTS attr false)
    else if t = .FLOATS then .ok (.mk name .FLOATS attr false)
    else if t = .STRINGS then .ok (.mk name .STRINGS attr false)
    else if t = .TENSOR then
      match attr with
      | .tensor _ => .ok (.mk name .TENSOR attr false)
      | .tensorProto p =>
        .ok (.mk name .TENSOR (.tensor (serde_deserialize_tensor p)) false)
      | _ => .error "Unsupported attribute type"
    else if t = .TENSORS then
      match attr.seqElems with
      | some xs =>
        .ok (.mk name .TENSORS
          (.seq (xs.map fun e =>
            match e with
            | .tensorProto p =>
              .attr (.mk name .TENSOR (.tensor (serde_deserialize_tensor p)) false)
            | _ => e))
          false)
      | Option.none => .error "TypeError: not iterable"
    else if t = .GRAPH then
      match attr with
      | .graphProto p =>
        .ok (.mk name .GRAPH (.graph (serde_deserialize_graph p)) false)
      | _ => .ok (.mk name .GRAPH attr false)
    else if t = .GRAPHS then
      match attr.seqElems with
      | some xs =>
        .ok (.mk name .GRAPHS
          (.seq (xs.map fun e =>
            match e with
            | .graphProto p => .graph (serde_deserialize_graph p)
            | _ => e))
          false)
      | Option.none => .error "TypeError: not iterable"
    else if t = .TYPE_PROTO then .ok (.mk name .TYPE_PROTO attr false)
    else if t = .TYPE_PROTOS then .ok (.mk name .TYPE_PROTOS attr false)
    else .error "Unsupported attribute type"

/-! ## Constant resolver (`get_const_tensor`, source lines 403-503) -/

/-- The slice of a `_core.Value` that `get_const_tensor` reads from a
producer's output: its name. -/
structure OutInfo where
  name : Option String

/-- The slice of a `_core.Node` read by `get_const_tensor`: operator name,
domain, outputs and the name-to-attribute mapping (as an ordered list, the
iteration order of the Python dict). -/
structure IRNode where
  nodeName : String
  op_type : String
  domain : String
  outputs : List OutInfo
  attributes : List AttrRec

/-- The slice of a `_core.Value` read and written by `get_const_tensor`:
name, declared type, declared shape, embedded constant payload and the
producing node (absent for graph inputs and initializers). -/
structure IRValue where
  name : Option String
  vtype : Option TypeIR
  shape : Option (List Nat)
  const_value : Option Tensor
  producer : Option IRNode

/-- A diagnostic emitted by the shape/type propagation step
(`logger.warning` calls in the source). -/
inductive Warning where
  | shapeMismatch
  | typeMismatch
  deriving DecidableEq, Repr

/-- Modelled from the spec: `np.array(v, dtype=np.float32)` on an attribute
payload (numpy is an external collaborator): a scalar becomes a 0-d array, a
sequence a 1-d array; ints coerce to float32; anything else is a
`TypeError`. Returns the element list and the shape. -/
def npFloat32 : PyVal → Except String (List F32 × List Nat)
  | .float f => .ok ([f], [])
  | .int i => .ok ([intToF32 i], [])
  | .seq xs => do
    let d ← xs.mapM fun e =>
      match e with
      | .float f => .ok f
      | .int i => .ok (intToF32 i)
      | _ => .error "np.array: cannot convert element to float32"
    .ok (d, [d.length])
  | _ => .error "np.array: cannot convert to float32"

/-- Modelled from the spec: `np.array(v, dtype=np.int64)`. -/
def npInt64 : PyVal → Except String (List Int × List Nat)
  | .int i => .ok ([i], [])
  | .float f => .ok ([f32ToInt f], [])
  | .seq xs => do
    let d ← xs.mapM fun e =>
      match e with
      | .int i => .ok i
      | .float f => .ok (f32ToInt f)
      | _ => .error "np.array: cannot convert element to int64"
    .ok (d, [d.length])
  | _ => .error "np.array: cannot convert to int64"

/-- Modelled from the spec: `np.array(v, dtype=np.bytes_)`. -/
def npBytes : PyVal → Except String (List String × List Nat)
  | .str s => .ok ([s], [])
  | .seq xs => do
    let d ← xs.mapM fun e =>
      match e with
      | .str s => .ok s
      | _ => .error "np.array: cannot convert element to bytes"
    .ok (d, [d.length])
  | _ => .error "np.array: cannot convert to bytes"

/-- Modelled from the spec: `Attr.as_tensor()` on the attribute's stored
value — returns the stored tensor of a `TENSOR`-typed attribute, and raises
otherwise. -/
def attrAsTensor : PyVal → Except String Tensor
  | .tensor t => .ok t
  | _ => .error "as_tensor: attribute does not store a tensor"

/-- The name of the first output of a node (`node.outputs[0].name`). -/
def IRNode.output0Name (node : IRNode) : Option String :=
  match node.outputs with
  | o :: _ => o.name
  | [] => Option.none

/-- The decoding selected by the single attribute's name in a recognized
Constant node (source lines 459-479): `value_float`/`value_floats` build a
float32 tensor, `value_int`/`value_ints` an int64 tensor,
`value_string`/`value_strings` a byte-string tensor, `value` returns the
stored tensor directly, anything else raises. -/
def constantNodeTensor (node : IRNode) (a : AttrRec) : Except String Tensor :=
  if a.name = "value_float" ∨ a.name = "value_floats" then do
    let (d, sh) ← npFloat32 a.value
    .ok ⟨.FLOAT, .f32 d, sh, node.output0Name⟩
  else if a.name = "value_int" ∨ a.name = "value_ints" then do
    let (d, sh) ← npInt64 a.value
    .ok ⟨.INT64, .i64 d, sh, node.output0Name⟩
  else if a.name = "value_string" ∨ a.name = "value_strings" then do
    let (d, sh) ← npBytes a.value
    .ok ⟨.STRING, .bytes d, sh, node.output0Name⟩
  else if a.name = "value" then attrAsTensor a.value
  else .error "Unsupported attribute in Constant node"

/-- The shape/type propagation block of `get_const_tensor` (source lines
482-502): overwrite the value's shape with the tensor's shape and its type
with a tensor-type wrapping the tensor's dtype, emitting a warning for each
pre-existing conflicting entry. -/
def propagateST (tensor : Tensor) (value : IRValue) : IRValue × List Warning :=
  let ws1 : List Warning :=
    if value.shape ≠ Option.none ∧ value.shape ≠ some tensor.shape then
      [.shapeMismatch]
    else []
  let newType := TypeIR.tensorType tensor.dtype
  let ws2 : List Warning :=
    if value.vtype ≠ Option.none ∧ value.vtype ≠ some newType then
      [.typeMismatch]
    else []
  ({ value with shape := some tensor.shape, vtype := some newType }, ws1 ++ ws2)

/-- The tail of `get_const_tensor` once a tensor has been resolved: run the
propagation block when requested, else leave the value untouched. -/
def finishGCT (t : Tensor) (value : IRValue) (propagate : Bool) :
    Option Tensor × IRValue × List Warning :=
  if propagate then (some t, (propagateST t value).1, (propagateST t value).2)
  else (some t, value, [])

/-- `get_const_tensor` (source lines 403-503).  Returns the resolved tensor
(or `none` for a benign absence), the value after any propagation, and the
warnings emitted; raises (`.error`) on structural malformation.  The early
`return None` paths leave the value untouched and skip propagation. -/
def get_const_tensor (value : IRValue) (propagate_shape_type : Bool) :
    Except String (Option Tensor × IRValue × List Warning) :=
  match value.const_value with
  | some t => .ok (finishGCT t value propagate_shape_type)
  | Option.none =>
    match value.producer with
    | Option.none => .ok (Option.none, value, [])
    | some node =>
      if node.op_type ≠ "Constant" ∨ node.domain ≠ "" then
        .ok (Option.none, value, [])
      else if node.outputs.length ≠ 1 then
        .error "Constant node must have exactly one output"
      else
        match node.attributes with
        | [a] =>
          if a.isRef then .ok (Option.none, value, [])
          else do
            let t ← constantNodeTensor node a
            let t := { t with name := value.name }
            .ok (finishGCT t value propagate_shape_type)
        | _ => .error "Constant node must have exactly one attribute"

/-! ## Graph rewiring (`replace_all_uses_with`, source lines 263-316)

Values are arena indices (`ValueId`); the state of the rewiring protocol is
the input-slot table of every node.  Per the storage-layer invariant (spec
section 3), a value's use set is exactly the set of (node, slot) pairs whose
input references it, so uses are derived from the slot table and
`Node.replace_input_with` updates both sides at once by construction. -/

/-- An arena index identifying a value. -/
abbrev ValueId := Nat

/-- The rewiring-relevant graph state: for each node (by index), its ordered
input slots (a slot may be empty). -/
structure RGraph where
  nodes : List (List (Option ValueId))
  deriving DecidableEq, Repr

/-- The input in slot `i` of node `n` (`node.inputs[i]`); `none` for an
empty slot or an out-of-range index. -/
def inputAt (g : RGraph) (n i : Nat) : Option ValueId :=
  match g.nodes[n]? with
  | some slots =>
    match slots[i]? with
    | some s => s
    | Option.none => Option.none
  | Option.none => Option.none

/-- The uses of `v` contributed by one node's slot list. -/
def slotUses (slots : List (Option ValueId)) (n : Nat) (v : ValueId) :
    List (Nat × Nat) :=
  (List.range slots.length).filterMap fun i =>
    if slots[i]? = some (some v) then some (n, i) else Option.none

/-- `value.uses()`: every (consumer node, input slot) pair currently
referencing `v`, derived from the slot table (storage-layer invariant). -/
def usesOf (g : RGraph) (v : ValueId) : List (Nat × Nat) :=
  (List.range g.nodes.length).flatMap fun n =>
    match g.nodes[n]? with
    | some slots => slotUses slots n v
    | Option.none => []

/-- `user_node.replace_input_with(index, replacement)`: set slot `i` of node
`n` to reference `r` (use-set bookkeeping on both sides is implicit since
uses are derived). -/
def replace_input_with (g : RGraph) (n i : Nat) (r : ValueId) : RGraph :=
  ⟨g.nodes.set n ((g.nodes.getD n []).set i (some r))⟩

/-- The inner loop of `replace_all_uses_with` (source lines 314-316) for one
(value, replacement) pair: repoint every use recorded in the snapshot
`tuple(value.uses())` — taken before any mutation — to the replacement. -/
def rewireStep (g : RGraph) (vr : ValueId × ValueId) : RGraph :=
  (usesOf g vr.1).foldl (fun g ni => replace_input_with g ni.1 ni.2 vr.2) g

/-- `replace_all_uses_with` (source lines 308-316) on sequences: fail on a
length mismatch, then run the snapshot-and-repoint loop over the zipped
pairs. -/
def replace_all_uses_with (g : RGraph) (values replacements : List ValueId) :
    Except String RGraph :=
  if values.length ≠ replacements.length then
    .error "The number of values and replacements must match."
  else
    .ok ((values.zip replacements).foldl rewireStep g)

/-- Specification helper (not from the source): the substitution that a pair
list induces on the contents of one input slot — the first pair whose value
matches the slot's current reference supplies the replacement. -/
def substApply (pairs : List (ValueId × ValueId)) :
    Option ValueId → Option ValueId
  | some w =>
    match pairs.find? (fun q => q.1 == w) with
    | some q => some q.2
    | Option.none => some w
  | Option.none => Option.none

/-! ## Metadata copy step of `replace_nodes_and_values` (source lines 381-388) -/

/-- The metadata of a `_core.Value` copied by `replace_nodes_and_values`:
declared type, declared shape, embedded constant payload and name. -/
structure ValueMeta where
  vtype : Option TypeIR
  shape : Option (List Nat)
  const_value : Option Tensor
  name : Option String
  deriving DecidableEq, Repr

/-- A store of value metadata indexed by arena id (values are objects; two
distinct ids may alias the same metadata content but not the same object). -/
abbrev MetaStore := Nat → ValueMeta

/-- One iteration of the copy loop: `new_value.type = old_value.type;
new_value.shape = old_value.shape; new_value.const_value =
old_value.const_value; new_value.name = old_value.name` — a one-directional
overwrite of the whole metadata record of `p.2` with that of `p.1`. -/
def copyPairStep (s : MetaStore) (p : Nat × Nat) : MetaStore :=
  fun j => if j = p.2 then s p.1 else s j

/-- The metadata-copy step of `replace_nodes_and_values` (source lines
381-388): `for old_value, new_value in zip(old_values, new_values)` — the
positional zip truncates to the shorter sequence. -/
def replace_nodes_and_values_metadata_copy (s : MetaStore)
    (old_values new_values : List Nat) : MetaStore :=
  (old_values.zip new_values).foldl copyPairStep s

/-! ## `create_value_mapping` (source lines 319-359) -/

/-- A value as seen by `create_value_mapping`: an identity and a name
(`None` or a string, possibly empty). -/
structure CValue where
  id : Nat
  name : Option String
  deriving DecidableEq, Repr

mutual

/-- The slice of a `_core.Graph` read by `create_value_mapping`:
initializers (the graph's name-to-value dict, in iteration order), inputs,
and the node list. -/
inductive CGraph where
  | mk (initializers : List (String × CValue)) (inputs : List CValue)
      (nodes : List CNode)

/-- A node as seen by `create_value_mapping`: input slots (possibly empty),
outputs, and the subgraphs held by its GRAPH/GRAPHS attributes. -/
inductive CNode where
  | mk (inputs : List (Option CValue)) (outputs : List CValue)
      (subgraphs : List CGraph)

end

/-- Initializers of a graph. -/
def CGraph.initializers : CGraph → List (String × CValue)
  | .mk ini _ _ => ini

/-- Inputs of a graph. -/
def CGraph.inputs : CGraph → List CValue
  | .mk _ ins _ => ins

/-- Top-level nodes of a graph. -/
def CGraph.nodes : CGraph → List CNode
  | .mk _ _ ns => ns

/-- Input slots of a node. -/
def CNode.inputs : CNode → List (Option CValue)
  | .mk ins _ _ => ins

/-- Outputs of a node. -/
def CNode.outputs : CNode → List CValue
  | .mk _ outs _ => outs

/-- Subgraphs held by a node's attributes. -/
def CNode.subgraphs : CNode → List CGraph
  | .mk _ _ subs => subs

mutual

/-- Modelled from the spec: `traversal.RecursiveGraphIterator(graph)` (the
`traversal` module is not part of this source file) — every node reachable
by a full recursive descent into nested subgraphs, each node listed before
the nodes of its own subgraphs. -/
def CGraph.allNodes : CGraph → List CNode
  | .mk _ _ ns => CNode.listAllNodes ns

/-- A node followed by the recursive traversal of its subgraphs. -/
def CNode.withSubNodes : CNode → List CNode
  | .mk ins outs subs => .mk ins outs subs :: CGraph.listAllNodes subs

/-- Recursive traversal of a list of nodes. -/
def CNode.listAllNodes : List CNode → List CNode
  | [] => []
  | n :: rest => n.withSubNodes ++ CNode.listAllNodes rest

/-- Recursive traversal of a list of graphs. -/
def CGraph.listAllNodes : List CGraph → List CNode
  | [] => []
  | g :: rest => g.allNodes ++ CGraph.listAllNodes rest

end

/-- A Python `dict[str, Value]` in insertion order. -/
abbrev VDict := List (String × CValue)

/-- Dict lookup (first — and, with unique keys, only — binding of `q`). -/
def dlookup : VDict → String → Option CValue
  | [], _ => Option.none
  | (k, v) :: rest, q => if k = q then some v else dlookup rest q

/-- `name in values`. -/
def dcontains (m : VDict) (q : String) : Bool :=
  (dlookup m q).isSome

/-- `values[k] = v`: replace the value of an existing key in place, else
append the new binding. -/
def dsetItem : VDict → String → CValue → VDict
  | [], k, v => [(k, v)]
  | (k', v') :: rest, k, v =>
    if k' = k then (k', v) :: rest else (k', v') :: dsetItem rest k v

/-- `if not value.name` — true for `None` and for the empty string. -/
def nameFalsy : Option String → Bool
  | some s => s = ""
  | Option.none => true

/-- The body of the per-value insertion used by the input/traversal loops:
skip falsy names and already-present names, else insert. -/
def insertNamed (m : VDict) (v : CValue) : VDict :=
  match v.name with
  | some s =>
    if nameFalsy v.name then m
    else if dcontains m s then m
    else dsetItem m s v
  | Option.none => m

/-- `create_value_mapping` (source lines 319-359): start from
`values.update(graph.initializers)`, then insert named graph inputs, then,
for every node of the recursive traversal, its (present) inputs and then its
outputs, skipping falsy names and names already present. -/
def create_value_mapping (g : CGraph) : VDict :=
  let m : VDict := g.initializers.foldl (fun m p => dsetItem m p.1 p.2) []
  let m := g.inputs.foldl insertNamed m
  g.allNodes.foldl
    (fun m n =>
      let m := n.inputs.foldl
        (fun m vo =>
          match vo with
          | some v => insertNamed m v
          | Option.none => m) m
      n.outputs.foldl insertNamed m)
    m

/-- Specification helper (not from the source): the dict entry a value
contributes when inserted by name — `none` for a falsy (absent or empty)
name. -/
def namedEntry (v : CValue) : Option (String × CValue) :=
  match v.name with
  | some s => if s = "" then Option.none else some (s, v)
  | Option.none => Option.none

/-- Specification helper: first-occurrence-wins insertion of one entry. -/
def insEntry (m : VDict) (e : String × CValue) : VDict :=
  if dcontains m e.1 then m else m ++ [e]

/-- Specification helper: the named entries one traversed node contributes,
inputs before outputs. -/
def nodeEntries (n : CNode) : List (String × CValue) :=
  (n.inputs.filterMap fun vo => vo.bind namedEntry)
  ++ n.outputs.filterMap namedEntry

/-- Specification helper: every candidate binding in encounter order —
initializers, then named graph inputs, then the named inputs and outputs of
every node of the recursive traversal. -/
def encounterList (g : CGraph) : List (String × CValue) :=
  g.initializers
    ++ (g.inputs.filterMap namedEntry ++ g.allNodes.flatMap nodeEntries)

/-! ## Theorems -/

/-- C2 (counterexample): on the empty sequence `_infer_attribute_type` does
not fall through to the unsupported-type error — the first sequence rule
(`all ints`) is vacuously true, so it returns `INTS`. -/
theorem c2_empty_sequence_counterexample :
    _infer_attribute_type (.seq []) = .ok .INTS := by
  rfl

/-- C2 (amended): every empty sequence given as the native value is resolved
by the first sequence rule to `INTS` (each `all(...)` check is vacuously
true on an empty sequence); it does not fail with the unsupported-type
error. -/
theorem c2_empty_sequence_infers_ints (x : PyVal)
    (h : x.seqElems = some []) :
    _infer_attribute_type x = .ok .INTS := by
  cases x <;> simp_all [PyVal.seqElems, _infer_attribute_type, PyVal.isInt,
    PyVal.isFloat, PyVal.isStr, PyVal.seqAll]

/-- C2 (witness for the amended theorem): the empty list literal. -/
theorem c2_empty_sequence_infers_ints_witness :
    _infer_attribute_type (.seq []) = .ok .INTS :=
  c2_empty_sequence_infers_ints (.seq []) rfl

/-- C9: `convert_attribute` on an absent value fails without an explicit
tag and otherwise returns a reference-less placeholder of that tag with no
value; on an already-typed `Attr` record it succeeds — returning that very
record — exactly when the stored name equals the requested name and any
explicitly supplied tag equals the stored tag, and fails with a mismatch
error otherwise. -/
theorem c9_convert_attribute_none_and_record (name : String) :
    (convert_attribute name .none Option.none
        = .error "attr_type must be provided when attr is None")
  ∧ (∀ t, convert_attribute name .none (some t)
        = .ok (.mk name t .none false))
  ∧ (∀ a ot, convert_attribute name (.attr a) ot = .ok a
        ↔ (a.name = name ∧ (ot = Option.none ∨ ot = some a.type)))
  ∧ (∀ a ot, (∃ e, convert_attribute name (.attr a) ot = .error e)
        ↔ (a.name ≠ name ∨ ∃ t, ot = some t ∧ a.type ≠ t)) := by
  refine ⟨rfl, fun t => rfl, ?_, ?_⟩
  · intro a ot
    by_cases hn : a.name = name
    · cases ot with
      | none => simp [convert_attribute, hn]
      | some t =>
        by_cases ht : a.type = t
        · simp [convert_attribute, hn, ht]
        · simp [convert_attribute, hn, ht]
          exact fun h => ht h.symm
    · simp [convert_attribute, hn]
  · intro a ot
    by_cases hn : a.name = name
    · cases ot with
      | none => simp [convert_attribute, hn]
      | some t =>
        by_cases ht : a.type = t <;> simp [convert_attribute, hn, ht]
    · simp [convert_attribute, hn]

/-- C9 (witness): concrete instances of every conjunct at `name = "k"`,
with the record `⟨"k", INT, 7, false⟩`. -/
theorem c9_convert_attribute_none_and_record_witness :
    (convert_attribute "k" .none Option.none
        = .error "attr_type must be provided when attr is None")
  ∧ (convert_attribute "k" .none (some .FLOAT)
        = .ok (.mk "k" .FLOAT .none false))
  ∧ (convert_attribute "k" (.attr (.mk "k" .INT (.int 7) false)) Option.none
        = .ok (.mk "k" .INT (.int 7) false))
  ∧ (∃ e, convert_attribute "k" (.attr (.mk "j" .INT (.int 7) false))
        Option.none = .error e) := by
  obtain ⟨h1, h2, h3, h4⟩ := c9_convert_attribute_none_and_record "k"
  refine ⟨h1, h2 .FLOAT, ?_, ?_⟩
  · exact (h3 (.mk "k" .INT (.int 7) false) Option.none).mpr
      ⟨rfl, Or.inl rfl⟩
  · exact (h4 (.mk "j" .INT (.int 7) false) Option.none).mpr
      (Or.inl (by simp [AttrRec.name]))

/-- C3 (code bug): converting a sequence holding one externally-encoded
tensor infers `TENSORS`, but the stored value wraps the decoded tensor in a
fresh `Attr` record (`_core.AttrTensor(name, serde.deserialize_tensor(t))`)
instead of storing the decoded native tensor itself, so the stored value
read back is not value-equal to the decoded input. -/
theorem c3_tensors_roundtrip_bug :
    (convert_attribute "x"
        (.seq [.tensorProto ⟨⟨.FLOAT, .f32 [⟨1⟩, ⟨2⟩], [2], Option.none⟩⟩])
        Option.none
      = .ok (.mk "x" .TENSORS
          (.seq [.attr (.mk "x" .TENSOR
            (.tensor ⟨.FLOAT, .f32 [⟨1⟩, ⟨2⟩], [2], Option.none⟩) false)])
          false))
  ∧ PyVal.seq [.attr (.mk "x" .TENSOR
        (.tensor ⟨.FLOAT, .f32 [⟨1⟩, ⟨2⟩], [2], Option.none⟩) false)]
      ≠ PyVal.seq [.tensor ⟨.FLOAT, .f32 [⟨1⟩, ⟨2⟩], [2], Option.none⟩] := by
  refine ⟨rfl, ?_⟩
  intro h
  injection h with h
  injection h with h1 h2
  exact PyVal.noConfusion h1

/-- Helper: under the recognized-Constant hypotheses, `get_const_tensor`
reduces to decoding the single attribute and finishing. -/
theorem gct_constant_step (value : IRValue) (node : IRNode) (a : AttrRec)
    (p : Bool)
    (hcv : value.const_value = Option.none)
    (hpr : value.producer = some node)
    (hop : node.op_type = "Constant") (hdom : node.domain = "")
    (houts : node.outputs.length = 1) (hattrs : node.attributes = [a])
    (href : a.isRef = false) :
    get_const_tensor value p
      = (do
          let t ← constantNodeTensor node a
          .ok (finishGCT { t with name := value.name } value p)) := by
  simp only [get_const_tensor, hcv, hpr, hop, hdom, hattrs, href]
  simp [houts]

/-- C6: when `get_const_tensor` resolves through a recognized Constant node,
the single attribute's name selects the decoding — `value_float`/
`value_floats` yield a float32 tensor of the attribute's data, `value_int`/
`value_ints` an int64 tensor, `value_string`/`value_strings` a byte-string
tensor, `value` the stored tensor directly; any other name is a hard error;
and the resolved tensor's name is overwritten with the queried value's
name. -/
theorem c6_constant_node_decoding
    (value : IRValue) (node : IRNode) (a : AttrRec)
    (hcv : value.const_value = Option.none)
    (hpr : value.producer = some node)
    (hop : node.op_type = "Constant") (hdom : node.domain = "")
    (houts : node.outputs.length = 1) (hattrs : node.attributes = [a])
    (href : a.isRef = false) :
    (∀ d sh, (a.name = "value_float" ∨ a.name = "value_floats") →
        npFloat32 a.value = .ok (d, sh) →
        get_const_tensor value false
          = .ok (some ⟨.FLOAT, .f32 d, sh, value.name⟩, value, []))
  ∧ (∀ d sh, (a.name = "value_int" ∨ a.name = "value_ints") →
        npInt64 a.value = .ok (d, sh) →
        get_const_tensor value false
          = .ok (some ⟨.INT64, .i64 d, sh, value.name⟩, value, []))
  ∧ (∀ d sh, (a.name = "value_string" ∨ a.name = "value_strings") →
        npBytes a.value = .ok (d, sh) →
        get_const_tensor value false
          = .ok (some ⟨.STRING, .bytes d, sh, value.name⟩, value, []))
  ∧ (∀ t, a.name = "value" → a.value = .tensor t →
        get_const_tensor value false
          = .ok (some { t with name := value.name }, value, []))
  ∧ (a.name ≠ "value_float" → a.name ≠ "value_floats" →
     a.name ≠ "value_int" → a.name ≠ "value_ints" →
     a.name ≠ "value_string" → a.name ≠ "value_strings" →
     a.name ≠ "value" →
        ∃ e, get_const_tensor value false = .error e) := by
  have hstep := gct_constant_step value node a false hcv hpr hop hdom houts
    hattrs href
  refine ⟨?_, ?_, ?_, ?_, ?_⟩
  · intro d sh hname hnp
    rw [hstep]
    rcases hname with hname | hname <;>
      (simp [constantNodeTensor, hname, hnp, finishGCT]; try rfl)
  · intro d sh hname hnp
    rw [hstep]
    rcases hname with hname | hname <;>
      (simp [constantNodeTensor, hname, hnp, finishGCT]; try rfl)
  · intro d sh hname hnp
    rw [hstep]
    rcases hname with hname | hname <;>
      (simp [constantNodeTensor, hname, hnp, finishGCT]; try rfl)
  · intro t hname hval
    rw [hstep]
    simp [constantNodeTensor, hname, hval, attrAsTensor, finishGCT]
    try rfl
  · intro h1 h2 h3 h4 h5 h6 h7
    rw [hstep]
    simp [constantNodeTensor, h1, h2, h3, h4, h5, h6, h7]
    try exact ⟨_, rfl⟩

/-- C6 (witness): a Constant node with the single attribute
`value_ints = [1, 2]` resolves to the int64 tensor `[1, 2]` named after the
queried value. -/
theorem c6_constant_node_decoding_witness :
    get_const_tensor
      ⟨some "out", Option.none, Option.none, Option.none,
        some ⟨"n", "Constant", "", [⟨some "out"⟩],
          [.mk "value_ints" .INTS (.seq [.int 1, .int 2]) false]⟩⟩
      false
    = .ok (some ⟨.INT64, .i64 [1, 2], [2], some "out"⟩,
        ⟨some "out", Option.none, Option.none, Option.none,
          some ⟨"n", "Constant", "", [⟨some "out"⟩],
            [.mk "value_ints" .INTS (.seq [.int 1, .int 2]) false]⟩⟩, []) := by
  have h := c6_constant_node_decoding
    ⟨some "out", Option.none, Option.none, Option.none,
      some ⟨"n", "Constant", "", [⟨some "out"⟩],
        [.mk "value_ints" .INTS (.seq [.int 1, .int 2]) false]⟩⟩
    ⟨"n", "Constant", "", [⟨some "out"⟩],
      [.mk "value_ints" .INTS (.seq [.int 1, .int 2]) false]⟩
    (.mk "value_ints" .INTS (.seq [.int 1, .int 2]) false)
    rfl rfl rfl rfl rfl rfl rfl
  exact h.2.1 [1, 2] [2] (Or.inr rfl) rfl

/-- C7 (counterexample): a recognized Constant producer with exactly one
output and exactly one attribute still raises a hard error when that
attribute's name is unsupported (here `sparse_value`), so the error cases
are not exactly the arity violations. -/
theorem c7_counterexample_unsupported_attr :
    (∃ e, get_const_tensor
        ⟨Option.none, Option.none, Option.none, Option.none,
          some ⟨"n", "Constant", "", [⟨Option.none⟩],
            [.mk "sparse_value" .TENSOR .none false]⟩⟩
        false = .error e)
  ∧ (IRNode.outputs ⟨"n", "Constant", "", [⟨Option.none⟩],
        [.mk "sparse_value" .TENSOR .none false]⟩).length = 1
  ∧ (IRNode.attributes ⟨"n", "Constant", "", [⟨Option.none⟩],
        [.mk "sparse_value" .TENSOR .none false]⟩).length = 1 := by
  exact ⟨⟨"Unsupported attribute in Constant node", rfl⟩, rfl, rfl⟩

/-- C7 (amended): `get_const_tensor` returns the embedded payload as-is when
present; returns absence (not an error) when the value has no producer, when
the producer is not the Constant operator in the empty-string domain, or
when the single attribute is a deferred reference; raises a hard error when
the recognized Constant producer does not have exactly one output or exactly
one attribute, and also when its single non-reference attribute's name is
not one of the supported encodings. -/
theorem c7_resolution_cases (value : IRValue) :
    (∀ t p, value.const_value = some t →
        ∃ v' ws, get_const_tensor value p = .ok (some t, v', ws))
  ∧ (∀ p, value.const_value = Option.none → value.producer = Option.none →
        get_const_tensor value p = .ok (Option.none, value, []))
  ∧ (∀ node p, value.const_value = Option.none →
        value.producer = some node →
        (node.op_type ≠ "Constant" ∨ node.domain ≠ "") →
        get_const_tensor value p = .ok (Option.none, value, []))
  ∧ (∀ node p, value.const_value = Option.none →
        value.producer = some node →
        node.op_type = "Constant" → node.domain = "" →
        node.outputs.length ≠ 1 →
        ∃ e, get_const_tensor value p = .error e)
  ∧ (∀ node p, value.const_value = Option.none →
        value.producer = some node →
        node.op_type = "Constant" → node.domain = "" →
        node.outputs.length = 1 → node.attributes.length ≠ 1 →
        ∃ e, get_const_tensor value p = .error e)
  ∧ (∀ node a p, value.const_value = Option.none →
        value.producer = some node →
        node.op_type = "Constant" → node.domain = "" →
        node.outputs.length = 1 → node.attributes = [a] → a.isRef = true →
        get_const_tensor value p = .ok (Option.none, value, []))
  ∧ (∀ node a p, value.const_value = Option.none →
        value.producer = some node →
        node.op_type = "Constant" → node.domain = "" →
        node.outputs.length = 1 → node.attributes = [a] → a.isRef = false →
        a.name ≠ "value_float" → a.name ≠ "value_floats" →
        a.name ≠ "value_int" → a.name ≠ "value_ints" →
        a.name ≠ "value_string" → a.name ≠ "value_strings" →
        a.name ≠ "value" →
        ∃ e, get_const_tensor value p = .error e) := by
  refine ⟨?_, ?_, ?_, ?_, ?_, ?_, ?_⟩
  · intro t p hcv
    simp only [get_const_tensor, hcv, finishGCT]
    by_cases hp : p = true <;> simp [hp]
    exact ⟨_, _, rfl⟩
  · intro p hcv hpr
    simp [get_const_tensor, hcv, hpr]
  · intro node p hcv hpr hne
    simp only [get_const_tensor, hcv, hpr]
    have : (node.op_type ≠ "Constant" ∨ node.domain ≠ "") = True := by
      simp [hne]
    simp [this]
  · intro node p hcv hpr hop hdom hlen
    simp [get_const_tensor, hcv, hpr, hop, hdom, hlen]
  · intro node p hcv hpr hop hdom hlen halen
    simp only [get_const_tensor, hcv, hpr, hop, hdom, hlen]
    match hm : node.attributes with
    | [] => simp
    | [a] => rw [hm] at halen; simp at halen
    | a :: b :: rest => simp
  · intro node a p hcv hpr hop hdom hlen hattrs href
    simp [get_const_tensor, hcv, hpr, hop, hdom, hlen, hattrs, href]
  · intro node a p hcv hpr hop hdom hlen hattrs href h1 h2 h3 h4 h5 h6 h7
    rw [gct_constant_step value node a p hcv hpr hop hdom hlen hattrs href]
    simp [constantNodeTensor, h1, h2, h3, h4, h5, h6, h7]
    try exact ⟨_, rfl⟩

/-- C7 (witness): the amended theorem at a value with an embedded payload,
at a producerless value, and at a Constant producer with two outputs. -/
theorem c7_resolution_cases_witness :
    (∃ v' ws, get_const_tensor
        ⟨Option.none, Option.none, Option.none,
          some ⟨.FLOAT, .f32 [⟨1⟩], [1], Option.none⟩, Option.none⟩ false
      = .ok (some ⟨.FLOAT, .f32 [⟨1⟩], [1], Option.none⟩, v', ws))
  ∧ (get_const_tensor
        ⟨Option.none, Option.none, Option.none, Option.none, Option.none⟩
        false
      = .ok (Option.none,
          ⟨Option.none, Option.none, Option.none, Option.none, Option.none⟩,
          []))
  ∧ (∃ e, get_const_tensor
        ⟨Option.none, Option.none, Option.none, Option.none,
          some ⟨"n", "Constant", "", [⟨Option.none⟩, ⟨Option.none⟩],
            [.mk "value" .TENSOR .none false]⟩⟩ false = .error e) := by
  refine ⟨?_, ?_, ?_⟩
  · exact (c7_resolution_cases
      ⟨Option.none, Option.none, Option.none,
        some ⟨.FLOAT, .f32 [⟨1⟩], [1], Option.none⟩, Option.none⟩).1
      ⟨.FLOAT, .f32 [⟨1⟩], [1], Option.none⟩ false rfl
  · exact (c7_resolution_cases
      ⟨Option.none, Option.none, Option.none, Option.none,
        Option.none⟩).2.1 false rfl rfl
  · exact (c7_resolution_cases
      ⟨Option.none, Option.none, Option.none, Option.none,
        some ⟨"n", "Constant", "", [⟨Option.none⟩, ⟨Option.none⟩],
          [.mk "value" .TENSOR .none false]⟩⟩).2.2.2.1
      ⟨"n", "Constant", "", [⟨Option.none⟩, ⟨Option.none⟩],
        [.mk "value" .TENSOR .none false]⟩ false rfl rfl rfl rfl (by simp)

/-- Helper: every successful `get_const_tensor` call either took a
no-propagation path (value and warnings untouched, and with propagation
requested that only happens when no tensor was resolved), or resolved a
tensor and, with propagation requested, rewrote the value via
`propagateST`. -/
theorem gct_ok_inv (value : IRValue) (p : Bool) (o : Option Tensor)
    (v' : IRValue) (ws : List Warning)
    (h : get_const_tensor value p = .ok (o, v', ws)) :
    (v' = value ∧ ws = [] ∧ (p = true → o = Option.none))
  ∨ (p = true ∧ ∃ t, o = some t ∧ propagateST t value = (v', ws)) := by
  unfold get_const_tensor at h
  split at h
  · -- value.const_value = some t0
    rename_i t0 heq
    injection h with h
    unfold finishGCT at h
    split at h
    · rename_i hp
      exact Or.inr ⟨hp, t0, (congrArg Prod.fst h).symm, congrArg Prod.snd h⟩
    · rename_i hp
      exact Or.inl ⟨(congrArg (fun r => r.2.1) h).symm,
        (congrArg (fun r => r.2.2) h).symm, fun hpt => absurd hpt hp⟩
  · -- value.const_value = none
    split at h
    · -- no producer
      injection h with h
      exact Or.inl ⟨(congrArg (fun r => r.2.1) h).symm,
        (congrArg (fun r => r.2.2) h).symm,
        fun _ => (congrArg Prod.fst h).symm⟩
    · rename_i node hpr
      split at h
      · -- not a Constant node in the default domain
        injection h with h
        exact Or.inl ⟨(congrArg (fun r => r.2.1) h).symm,
          (congrArg (fun r => r.2.2) h).symm,
          fun _ => (congrArg Prod.fst h).symm⟩
      · split at h
        · -- wrong output arity: a hard error, not an ok result
          exact absurd h (by simp)
        · split at h
          · -- exactly one attribute
            rename_i a hattrs1
            split at h
            · -- deferred reference
              injection h with h
              exact Or.inl ⟨(congrArg (fun r => r.2.1) h).symm,
                (congrArg (fun r => r.2.2) h).symm,
                fun _ => (congrArg Prod.fst h).symm⟩
            · cases hct : constantNodeTensor node a with
              | error e =>
                rw [hct] at h
                exact absurd h (by simp [Bind.bind, Except.bind])
              | ok t1 =>
                rw [hct] at h
                simp only [Bind.bind, Except.bind] at h
                injection h with h
                unfold finishGCT at h
                split at h
                · rename_i hp
                  exact Or.inr ⟨hp, { t1 with name := value.name },
                    (congrArg Prod.fst h).symm, congrArg Prod.snd h⟩
                · rename_i hp
                  exact Or.inl ⟨(congrArg (fun r => r.2.1) h).symm,
                    (congrArg (fun r => r.2.2) h).symm,
                    fun hpt => absurd hpt hp⟩
          · -- wrong attribute arity: a hard error, not an ok result
            exact absurd h (by simp)

/-- C10: with `propagate_shape_type=False` a successful `get_const_tensor`
call leaves the queried value completely unchanged, and even with
`propagate_shape_type=True` it never modifies the value's embedded constant
payload or name. -/
theorem c10_value_frame (value : IRValue) :
    (∀ o v' ws, get_const_tensor value false = .ok (o, v', ws) →
        v' = value)
  ∧ (∀ o v' ws, get_const_tensor value true = .ok (o, v', ws) →
        v'.const_value = value.const_value ∧ v'.name = value.name) := by
  constructor
  · intro o v' ws h
    rcases gct_ok_inv value false o v' ws h with ⟨hv, _, _⟩ | ⟨hp, _⟩
    · exact hv
    · exact absurd hp (by simp)
  · intro o v' ws h
    rcases gct_ok_inv value true o v' ws h with ⟨hv, _, _⟩ | ⟨_, t, _, hps⟩
    · rw [hv]; exact ⟨rfl, rfl⟩
    · have h1 := congrArg (fun r : IRValue × List Warning => r.1.const_value) hps
      have h2 := congrArg (fun r : IRValue × List Warning => r.1.name) hps
      simp only [propagateST] at h1 h2
      exact ⟨h1.symm, h2.symm⟩

/-- C10 (witness): a value with an embedded payload queried without
propagation comes back unchanged. -/
theorem c10_value_frame_witness :
    IRValue.mk (some "w") Option.none Option.none
        (some ⟨.FLOAT, .f32 [⟨3⟩], [1], Option.none⟩) Option.none
      = IRValue.mk (some "w") Option.none Option.none
        (some ⟨.FLOAT, .f32 [⟨3⟩], [1], Option.none⟩) Option.none := by
  exact (c10_value_frame
    ⟨some "w", Option.none, Option.none,
      some ⟨.FLOAT, .f32 [⟨3⟩], [1], Option.none⟩, Option.none⟩).1
    (some ⟨.FLOAT, .f32 [⟨3⟩], [1], Option.none⟩)
    ⟨some "w", Option.none, Option.none,
      some ⟨.FLOAT, .f32 [⟨3⟩], [1], Option.none⟩, Option.none⟩
    [] rfl

/-- C8: whenever `get_const_tensor(value, propagate_shape_type=True)`
resolves a tensor, the value's shape is overwritten to the tensor's shape
and its declared type to a tensor-type wrapping the tensor's element kind; a
pre-existing conflicting shape or type is still overwritten (tensor wins)
with a diagnostic warning recorded; and with an embedded payload the call
succeeds for every pre-existing shape and type, never failing on a
conflict. -/
theorem c8_propagation_overwrites (value : IRValue) :
    (∀ t v' ws, get_const_tensor value true = .ok (some t, v', ws) →
        v'.shape = some t.shape
        ∧ v'.vtype = some (.tensorType t.dtype)
        ∧ (value.shape ≠ Option.none → value.shape ≠ some t.shape →
            Warning.shapeMismatch ∈ ws)
        ∧ (value.vtype ≠ Option.none →
            value.vtype ≠ some (.tensorType t.dtype) →
            Warning.typeMismatch ∈ ws))
  ∧ (∀ t, value.const_value = some t →
        ∃ v' ws, get_const_tensor value true = .ok (some t, v', ws)) := by
  constructor
  · intro t v' ws h
    rcases gct_ok_inv value true (some t) v' ws h with ⟨_, _, hnone⟩ | ⟨_, t', ht', hps⟩
    · exact absurd (hnone rfl) (by simp)
    · have ht : t' = t := by
        injection ht' with hh
        exact hh.symm
      rw [ht] at hps
      have hv := congrArg (fun r : IRValue × List Warning => r.1) hps
      have hw := congrArg (fun r : IRValue × List Warning => r.2) hps
      simp only [propagateST] at hv hw
      refine ⟨?_, ?_, ?_, ?_⟩
      · rw [← hv]
      · rw [← hv]
      · intro hs1 hs2
        rw [← hw]
        simp [hs1, hs2]
      · intro ht1 ht2
        rw [← hw]
        simp [ht1, ht2]
  · intro t hcv
    refine ⟨(propagateST t value).1, (propagateST t value).2, ?_⟩
    simp [get_const_tensor, hcv, finishGCT]

/-- C8 (witness): a value with a conflicting declared shape and type is
overwritten to the tensor's shape and dtype, with both warnings emitted, and
the call succeeds. -/
theorem c8_propagation_overwrites_witness :
    (some ([1] : List Nat) = some [1]
      ∧ some (TypeIR.tensorType .FLOAT) = some (.tensorType .FLOAT)
      ∧ Warning.shapeMismatch ∈ [Warning.shapeMismatch, Warning.typeMismatch]
      ∧ Warning.typeMismatch ∈ [Warning.shapeMismatch, Warning.typeMismatch]) := by
  have h := (c8_propagation_overwrites
    ⟨some "w", some (.tensorType .INT64), some [2, 2],
      some ⟨.FLOAT, .f32 [⟨3⟩], [1], Option.none⟩, Option.none⟩).1
    ⟨.FLOAT, .f32 [⟨3⟩], [1], Option.none⟩
    ⟨some "w", some (.tensorType .FLOAT), some [1],
      some ⟨.FLOAT, .f32 [⟨3⟩], [1], Option.none⟩, Option.none⟩
    [Warning.shapeMismatch, Warning.typeMismatch] rfl
  obtain ⟨h1, h2, h3, h4⟩ := h
  exact ⟨h1, h2, h3 (by simp) (by simp), h4 (by simp) (by simp)⟩

/-- Helper: reading index `j` after a copy pass whose source indices are
never written (`q.1 ∉ map snd`) gives the source value of the last pair that
wrote `j`, or the original value when no pair wrote `j`. -/
theorem runCopy_read (l : List (Nat × Nat)) (s : MetaStore)
    (hdisj : ∀ q ∈ l, q.1 ∉ l.map Prod.snd) (j : Nat) :
    (l.foldl copyPairStep s) j
      = match l.reverse.find? (fun q => q.2 == j) with
        | some q => s q.1
        | Option.none => s j := by
  induction l generalizing s with
  | nil => rfl
  | cons hd tl ih =>
    have hdisj' : ∀ q ∈ tl, q.1 ∉ tl.map Prod.snd := by
      intro q hq hmem
      refine hdisj q (List.mem_cons_of_mem _ hq) ?_
      simp only [List.map_cons]
      exact List.mem_cons_of_mem _ hmem
    have step : List.foldl copyPairStep s (hd :: tl)
        = List.foldl copyPairStep (copyPairStep s hd) tl := rfl
    rw [step, ih (copyPairStep s hd) hdisj', List.reverse_cons,
      List.find?_append]
    cases hf : tl.reverse.find? (fun q => q.2 == j) with
    | some q =>
      have hqtl : q ∈ tl := List.mem_reverse.mp (List.mem_of_find?_eq_some hf)
      have hq1 : ¬q.1 = hd.2 := by
        intro hcontra
        refine hdisj q (List.mem_cons_of_mem _ hqtl) ?_
        simp only [List.map_cons, hcontra]
        exact List.mem_cons_self _ _
      simp [copyPairStep, hq1, Option.or]
    | none =>
      by_cases hj : hd.2 = j
      · simp [copyPairStep, hj, Option.or, List.find?]
      · have hbj : (hd.2 == j) = false := by simp [hj]
        simp [copyPairStep, Option.or, List.find?, hbj]
        intro hcontra
        exact absurd hcontra.symm hj

/-- C4 (amended): when no old value occurs among the new values, the
metadata-copy step of `replace_nodes_and_values` (positional zip, shorter
sequence truncating) is idempotent: performing the one-directional overwrite
twice yields the same metadata store as performing it once. -/
theorem c4_metadata_copy_idempotent (s : MetaStore)
    (old_values new_values : List Nat)
    (hdisj : ∀ o ∈ old_values, o ∉ new_values) :
    replace_nodes_and_values_metadata_copy
        (replace_nodes_and_values_metadata_copy s old_values new_values)
        old_values new_values
      = replace_nodes_and_values_metadata_copy s old_values new_values := by
  funext j
  unfold replace_nodes_and_values_metadata_copy
  have hd : ∀ q ∈ old_values.zip new_values,
      q.1 ∉ (old_values.zip new_values).map Prod.snd := by
    intro q hq hmem
    obtain ⟨ho, _⟩ := List.of_mem_zip hq
    obtain ⟨q2, hq2, hq2eq⟩ := List.mem_map.mp hmem
    obtain ⟨_, hn⟩ := List.of_mem_zip hq2
    exact hdisj q.1 ho (hq2eq ▸ hn)
  set t := (old_values.zip new_values).foldl copyPairStep s with ht
  have h1 := runCopy_read (old_values.zip new_values) s hd j
  have h2 := runCopy_read (old_values.zip new_values) t hd j
  cases hf : (old_values.zip new_values).reverse.find? (fun q => q.2 == j) with
  | none =>
    rw [hf] at h2
    exact h2
  | some q =>
    rw [hf] at h1 h2
    have hqz : q ∈ old_values.zip new_values :=
      List.mem_reverse.mp (List.mem_of_find?_eq_some hf)
    have hts : t q.1 = s q.1 := by
      have h3 := runCopy_read (old_values.zip new_values) s hd q.1
      cases hf2 : (old_values.zip new_values).reverse.find?
          (fun r => r.2 == q.1) with
      | none =>
        rw [hf2] at h3
        exact h3
      | some r =>
        exfalso
        have hr : r ∈ old_values.zip new_values :=
          List.mem_reverse.mp (List.mem_of_find?_eq_some hf2)
        have hrq : r.2 = q.1 := by simpa using List.find?_some hf2
        exact hd q hqz (List.mem_map.mpr ⟨r, hr, hrq⟩)
    calc List.foldl copyPairStep t (old_values.zip new_values) j
        = t q.1 := h2
      _ = s q.1 := hts
      _ = t j := h1.symm

/-- C4 (counterexample): with `old_values = [v0, v1]` and
`new_values = [v2, v0]` — the old value `v0` also serving as a new value —
copying twice differs from copying once at `v2`, so the copy step is not
idempotent for every pair of sequences. -/
theorem c4_metadata_copy_counterexample :
    replace_nodes_and_values_metadata_copy
        (replace_nodes_and_values_metadata_copy
          (fun j => ⟨Option.none, some [j], Option.none, Option.none⟩)
          [0, 1] [2, 0])
        [0, 1] [2, 0] 2
      ≠ replace_nodes_and_values_metadata_copy
          (fun j => ⟨Option.none, some [j], Option.none, Option.none⟩)
          [0, 1] [2, 0] 2 := by
  decide

/-- C4 (witness): the amended theorem at disjoint index lists. -/
theorem c4_metadata_copy_idempotent_witness :
    replace_nodes_and_values_metadata_copy
        (replace_nodes_and_values_metadata_copy
          (fun j => ⟨Option.none, some [j], Option.none, Option.none⟩)
          [0, 1] [2, 3])
        [0, 1] [2, 3]
      = replace_nodes_and_values_metadata_copy
          (fun j => ⟨Option.none, some [j], Option.none, Option.none⟩)
          [0, 1] [2, 3] :=
  c4_metadata_copy_idempotent _ [0, 1] [2, 3] (by decide)

/-- Helper: membership in the per-node use list. -/
theorem mem_slotUses (slots : List (Option ValueId)) (n : Nat) (v : ValueId)
    (m i : Nat) :
    (m, i) ∈ slotUses slots n v ↔ m = n ∧ slots[i]? = some (some v) := by
  unfold slotUses
  simp only [List.mem_filterMap, List.mem_range]
  constructor
  · rintro ⟨k, hk, hik⟩
    split at hik
    · rename_i hsk
      injection hik with h
      cases h
      exact ⟨rfl, hsk⟩
    · exact absurd hik (by simp)
  · rintro ⟨rfl, hsv⟩
    have hi : i < slots.length := by
      rcases List.getElem?_eq_some.mp hsv with ⟨h, _⟩
      exact h
    exact ⟨i, hi, by rw [if_pos hsv]⟩

/-- Helper: the invariant linking derived uses to input slots — `(n, i)` is
a recorded use of `v` exactly when slot `i` of node `n` references `v`. -/
theorem mem_usesOf (g : RGraph) (v : ValueId) (n i : Nat) :
    (n, i) ∈ usesOf g v ↔ inputAt g n i = some v := by
  unfold usesOf inputAt
  simp only [List.mem_flatMap, List.mem_range]
  constructor
  · rintro ⟨m, hm, hmem⟩
    cases hgm : g.nodes[m]? with
    | none => rw [hgm] at hmem; simp at hmem
    | some slots =>
      rw [hgm] at hmem
      obtain ⟨rfl, hsv⟩ := (mem_slotUses slots m v n i).mp hmem
      simp only [hgm, hsv]
  · intro hv
    cases hgm : g.nodes[n]? with
    | none => simp [hgm] at hv
    | some slots =>
      simp only [hgm] at hv
      cases hsi : slots[i]? with
      | none => simp [hsi] at hv
      | some s =>
        simp only [hsi] at hv
        have hn : n < g.nodes.length := by
          rcases List.getElem?_eq_some.mp hgm with ⟨h, _⟩
          exact h
        refine ⟨n, hn, ?_⟩
        simp only [hgm]
        exact (mem_slotUses slots n v n i).mpr ⟨rfl, by rw [hsi, hv]⟩

/-- Helper: a slot that holds a reference is a well-formed index. -/
theorem inputAt_some_inv (g : RGraph) (n i : Nat) (w : ValueId)
    (h : inputAt g n i = some w) :
    n < g.nodes.length ∧ i < (g.nodes.getD n []).length := by
  unfold inputAt at h
  cases hgm : g.nodes[n]? with
  | none => simp [hgm] at h
  | some slots =>
    simp only [hgm] at h
    cases hsi : slots[i]? with
    | none => simp [hsi] at h
    | some s =>
      have hn : n < g.nodes.length := by
        rcases List.getElem?_eq_some.mp hgm with ⟨hb, _⟩
        exact hb
      have hi : i < slots.length := by
        rcases List.getElem?_eq_some.mp hsi with ⟨hb, _⟩
        exact hb
      have hgd : g.nodes.getD n [] = slots := by
        rw [List.getD_eq_getElem?_getD, hgm]
        rfl
      rw [hgd]
      exact ⟨hn, hi⟩

/-- Helper: `replace_input_with` leaves every other slot unchanged. -/
theorem inputAt_replace_ne (g : RGraph) (m k r n i : Nat)
    (h : ¬(n = m ∧ i = k)) :
    inputAt (replace_input_with g m k r) n i = inputAt g n i := by
  unfold inputAt replace_input_with
  by_cases hnm : n = m
  · subst hnm
    have hik : i ≠ k := fun hik => h ⟨rfl, hik⟩
    by_cases hn : n < g.nodes.length
    · have hgd : g.nodes.getD n [] = g.nodes[n] := by
        rw [List.getD_eq_getElem?_getD, List.getElem?_eq_getElem hn]
        rfl
      simp [List.getElem?_set, hgd, hn, List.getElem?_set_ne (Ne.symm hik),
        List.getElem?_eq_getElem hn]
    · rw [List.set_eq_of_length_le (Nat.le_of_not_lt hn)]
  · have hmn : m ≠ n := fun hmn => hnm hmn.symm
    simp only [List.getElem?_set_ne hmn]

/-- Helper: `replace_input_with` installs the replacement at the targeted
in-range slot. -/
theorem inputAt_replace_eq (g : RGraph) (m k r : Nat)
    (hm : m < g.nodes.length) (hk : k < (g.nodes.getD m []).length) :
    inputAt (replace_input_with g m k r) m k = some r := by
  unfold inputAt replace_input_with
  have hgd : g.nodes.getD m [] = g.nodes[m] := by
    rw [List.getD_eq_getElem?_getD, List.getElem?_eq_getElem hm]
    rfl
  rw [hgd] at hk
  simp [List.getElem?_set, hgd, hm, hk]

/-- Helper: `replace_input_with` preserves the number of nodes. -/
theorem replace_shape_nodes (g : RGraph) (m k r : Nat) :
    (replace_input_with g m k r).nodes.length = g.nodes.length := by
  simp [replace_input_with]

/-- Helper: `replace_input_with` preserves every node's slot count. -/
theorem replace_shape_slots (g : RGraph) (m k r n : Nat) :
    ((replace_input_with g m k r).nodes.getD n []).length
      = (g.nodes.getD n []).length := by
  unfold replace_input_with
  by_cases hnm : n = m
  · subst hnm
    by_cases hn : n < g.nodes.length
    · simp only [List.getD_eq_getElem?_getD, List.getElem?_set, if_pos rfl,
        if_pos hn]
      simp [List.length_set]
    · rw [List.set_eq_of_length_le (Nat.le_of_not_lt hn)]
  · have hmn : m ≠ n := fun hmn => hnm hmn.symm
    simp only [List.getD_eq_getElem?_getD, List.getElem?_set_ne hmn]

/-- Helper: repointing a list of other slots leaves slot `(n, i)`
unchanged. -/
theorem foldl_replace_not_mem (l : List (Nat × Nat)) (g : RGraph)
    (r n i : Nat) (h : (n, i) ∉ l) :
    inputAt (l.foldl (fun g ni => replace_input_with g ni.1 ni.2 r) g) n i
      = inputAt g n i := by
  induction l generalizing g with
  | nil => rfl
  | cons hd tl ih =>
    have hne : ¬(n = hd.1 ∧ i = hd.2) := by
      rintro ⟨rfl, rfl⟩
      exact h (by simp)
    rw [List.foldl_cons, ih _ (fun hmem => h (List.mem_cons_of_mem _ hmem))]
    exact inputAt_replace_ne g hd.1 hd.2 r n i hne

/-- Helper: repointing a list of slots containing `(n, i)` (in range)
installs the replacement there. -/
theorem foldl_replace_mem (l : List (Nat × Nat)) (g : RGraph) (r n i : Nat)
    (hmem : (n, i) ∈ l)
    (hn : n < g.nodes.length) (hi : i < (g.nodes.getD n []).length) :
    inputAt (l.foldl (fun g ni => replace_input_with g ni.1 ni.2 r) g) n i
      = some r := by
  induction l generalizing g with
  | nil => simp at hmem
  | cons hd tl ih =>
    rw [List.foldl_cons]
    by_cases hmem2 : (n, i) ∈ tl
    · exact ih _ hmem2 (by rw [replace_shape_nodes]; exact hn)
        (by rw [replace_shape_slots]; exact hi)
    · have hhd : hd = (n, i) := by
        rcases List.mem_cons.mp hmem with h | h
        · exact h.symm
        · exact absurd h hmem2
      subst hhd
      rw [foldl_replace_not_mem tl _ r n i hmem2]
      exact inputAt_replace_eq g n i r hn hi

/-- Helper: one pass of the snapshot-and-repoint loop rewrites exactly the
slots that referenced the value. -/
theorem rewireStep_inputAt (g : RGraph) (vr : ValueId × ValueId)
    (n i : Nat) :
    inputAt (rewireStep g vr) n i
      = if inputAt g n i = some vr.1 then some vr.2
        else inputAt g n i := by
  unfold rewireStep
  by_cases hmem : (n, i) ∈ usesOf g vr.1
  · have hv := (mem_usesOf g vr.1 n i).mp hmem
    obtain ⟨hn, hi⟩ := inputAt_some_inv g n i vr.1 hv
    rw [if_pos hv]
    exact foldl_replace_mem _ _ _ _ _ hmem hn hi
  · have hv : ¬inputAt g n i = some vr.1 :=
      fun hv => hmem ((mem_usesOf g vr.1 n i).mpr hv)
    rw [if_neg hv]
    exact foldl_replace_not_mem _ _ _ _ _ hmem

/-- Helper: `substApply` on the empty pair list is the identity. -/
theorem substApply_nil (s : Option ValueId) : substApply [] s = s := by
  cases s <;> rfl

/-- Helper: when no replacement also occurs as a value, the whole pair loop
acts on every slot as the first-match substitution of the ORIGINAL slot
contents — later pairs never see, and never rewrite, freshly installed
replacements. -/
theorem runPairs_inputAt (pairs : List (ValueId × ValueId)) (g : RGraph)
    (hdisj : ∀ q ∈ pairs, q.2 ∉ pairs.map Prod.fst) (n i : Nat) :
    inputAt (pairs.foldl rewireStep g) n i
      = substApply pairs (inputAt g n i) := by
  induction pairs generalizing g with
  | nil => rw [List.foldl_nil, substApply_nil]
  | cons hd tl ih =>
    have hdisj' : ∀ q ∈ tl, q.2 ∉ tl.map Prod.fst := by
      intro q hq hmem
      refine hdisj q (List.mem_cons_of_mem _ hq) ?_
      simp only [List.map_cons]
      exact List.mem_cons_of_mem _ hmem
    rw [List.foldl_cons, ih _ hdisj', rewireStep_inputAt]
    cases hg : inputAt g n i with
    | none =>
      rw [if_neg (by simp)]
      simp [substApply]
    | some w =>
      by_cases hw : w = hd.1
      · subst hw
        rw [if_pos rfl]
        have hfnone : tl.find? (fun q => q.1 == hd.2) = Option.none := by
          refine List.find?_eq_none.mpr ?_
          intro q hq hbeq
          refine hdisj hd (List.mem_cons_self _ _) ?_
          simp only [List.map_cons]
          refine List.mem_cons_of_mem _ ?_
          have hq1 : q.1 = hd.2 := by simpa using hbeq
          exact List.mem_map.mpr ⟨q, hq, hq1⟩
        simp [substApply, hfnone, List.find?]
      · rw [if_neg (by simp [hw])]
        have hbeq : (hd.1 == w) = false := by
          simp
          exact fun hcontra => hw hcontra.symm
        simp [substApply, List.find?, hbeq]

/-- Helper: after the pair loop no slot references any replaced value. -/
theorem runPairs_no_fst (pairs : List (ValueId × ValueId)) (g : RGraph)
    (hdisj : ∀ q ∈ pairs, q.2 ∉ pairs.map Prod.fst) (v : ValueId)
    (hv : v ∈ pairs.map Prod.fst) (n i : Nat) :
    inputAt (pairs.foldl rewireStep g) n i ≠ some v := by
  rw [runPairs_inputAt pairs g hdisj]
  intro hcontra
  cases hs : inputAt g n i with
  | none => rw [hs] at hcontra; simp [substApply] at hcontra
  | some w =>
    rw [hs] at hcontra
    cases hf : pairs.find? (fun q => q.1 == w) with
    | some q =>
      simp only [substApply, hf] at hcontra
      injection hcontra with hq2
      exact hdisj q (List.mem_of_find?_eq_some hf) (hq2 ▸ hv)
    | none =>
      simp only [substApply, hf] at hcontra
      injection hcontra with hwv
      obtain ⟨q, hq, hq1⟩ := List.mem_map.mp hv
      have := List.find?_eq_none.mp hf q hq
      rw [hq1, hwv] at this
      simp at this

/-- Helper: with pairwise-distinct values, the first matching pair for the
`i`-th value is the `i`-th pair itself. -/
theorem find?_fst_of_nodup (pairs : List (ValueId × ValueId))
    (hnd : (pairs.map Prod.fst).Nodup) (p : ValueId × ValueId)
    (hp : p ∈ pairs) :
    pairs.find? (fun q => q.1 == p.1) = some p := by
  induction pairs with
  | nil => simp at hp
  | cons hd tl ih =>
    have hnd2 : hd.1 ∉ tl.map Prod.fst ∧ (tl.map Prod.fst).Nodup := by
      rw [List.map_cons] at hnd
      exact List.nodup_cons.mp hnd
    rcases List.mem_cons.mp hp with rfl | hptl
    · simp [List.find?]
    · have hne : hd.1 ≠ p.1 := by
        intro heq
        exact hnd2.1 (heq ▸ List.mem_map.mpr ⟨p, hptl, rfl⟩)
      have hbeq : (hd.1 == p.1) = false := by simpa using hne
      simp only [List.find?, hbeq]
      exact ih hnd2.2 hptl

/-- C1 (amended): when the values are pairwise distinct and no value also
occurs among the replacements, `replace_all_uses_with(V, R)` on equal-length
sequences succeeds, and for each zipped pair every consumer slot that
referenced the value before the call references the paired replacement
afterwards at the same slot, and the value's use set is empty. -/
theorem c1_replace_all_uses_with (g : RGraph)
    (values replacements : List ValueId)
    (hlen : values.length = replacements.length)
    (hnd : values.Nodup)
    (hdisj : ∀ v ∈ values, v ∉ replacements) :
    ∃ g', replace_all_uses_with g values replacements = .ok g'
      ∧ ∀ p ∈ values.zip replacements,
          (∀ n slot, inputAt g n slot = some p.1 →
              inputAt g' n slot = some p.2)
          ∧ usesOf g' p.1 = [] := by
  refine ⟨(values.zip replacements).foldl rewireStep g, ?_, ?_⟩
  · unfold replace_all_uses_with
    rw [if_neg (by simp [hlen])]
  · have hfst : (values.zip replacements).map Prod.fst = values :=
      List.map_fst_zip values replacements (le_of_eq hlen)
    have hdisj' : ∀ q ∈ values.zip replacements,
        q.2 ∉ (values.zip replacements).map Prod.fst := by
      intro q hq hmem
      obtain ⟨h1, h2⟩ := List.of_mem_zip hq
      rw [hfst] at hmem
      exact hdisj q.2 hmem h2
    intro p hp
    constructor
    · intro n slot href
      rw [runPairs_inputAt _ _ hdisj', href]
      simp only [substApply]
      rw [find?_fst_of_nodup _ (by rw [hfst]; exact hnd) p hp]
    · rw [List.eq_nil_iff_forall_not_mem]
      rintro ⟨n, i⟩ hmem
      have hin := (mem_usesOf _ p.1 n i).mp hmem
      refine runPairs_no_fst _ g hdisj' p.1 ?_ n i hin
      rw [hfst]
      exact (List.of_mem_zip hp).1

/-- C1 (counterexample): with `V = [v0, v1]` and `R = [v1, v0]` on a graph
whose single node consumes `v0`, the two passes cancel: after the call the
consumer still references `v0` (not `R[0] = v1`) and `v0`'s use set is not
empty, so the claim fails for overlapping value/replacement sequences. -/
theorem c1_replace_all_uses_with_counterexample :
    replace_all_uses_with ⟨[[some 0]]⟩ [0, 1] [1, 0] = .ok ⟨[[some 0]]⟩
  ∧ inputAt ⟨[[some 0]]⟩ 0 0 = some 0
  ∧ inputAt ⟨[[some 0]]⟩ 0 0 ≠ some 1
  ∧ usesOf ⟨[[some 0]]⟩ 0 ≠ [] := by
  refine ⟨?_, rfl, by decide, by decide⟩
  rfl

/-- C1 (witness): the amended theorem on a one-node graph with `V = [v0]`,
`R = [v1]`. -/
theorem c1_replace_all_uses_with_witness :
    ∃ g', replace_all_uses_with ⟨[[some 0]]⟩ [0] [1] = .ok g'
      ∧ ∀ p ∈ ([0] : List ValueId).zip ([1] : List ValueId),
          (∀ n slot, inputAt ⟨[[some 0]]⟩ n slot = some p.1 →
              inputAt g' n slot = some p.2)
          ∧ usesOf g' p.1 = [] :=
  c1_replace_all_uses_with ⟨[[some 0]]⟩ [0] [1] rfl (by decide) (by decide)


/-- Helper: an absent lookup is exactly an absent key. -/
theorem dlookup_none_iff (m : VDict) (k : String) :
    dlookup m k = Option.none ↔ k ∉ m.map Prod.fst := by
  induction m with
  | nil => simp [dlookup]
  | cons hd tl ih =>
    by_cases hk : hd.1 = k
    · simp [dlookup, hk]
    · simp [dlookup, hk, ih, Ne.symm hk]

/-- Helper: setting a fresh key appends the binding. -/
theorem dsetItem_append (m : VDict) (k : String) (v : CValue)
    (h : k ∉ m.map Prod.fst) :
    dsetItem m k v = m ++ [(k, v)] := by
  induction m with
  | nil => rfl
  | cons hd tl ih =>
    simp only [List.map_cons, List.mem_cons] at h
    push_neg at h
    have hne : hd.1 ≠ k := fun c => h.1 c.symm
    simp only [dsetItem, if_neg hne]
    rw [ih h.2]
    rfl

/-- Helper: `dict.update` over bindings with pairwise-distinct fresh keys
appends them in order. -/
theorem foldl_dsetItem_append (l : List (String × CValue)) (m : VDict)
    (hnd : (l.map Prod.fst).Nodup)
    (hdisj : ∀ key ∈ l.map Prod.fst, key ∉ m.map Prod.fst) :
    l.foldl (fun m p => dsetItem m p.1 p.2) m = m ++ l := by
  induction l generalizing m with
  | nil => simp
  | cons hd tl ih =>
    have hnd2 : hd.1 ∉ tl.map Prod.fst ∧ (tl.map Prod.fst).Nodup := by
      rw [List.map_cons] at hnd
      exact List.nodup_cons.mp hnd
    have hfresh : hd.1 ∉ m.map Prod.fst :=
      hdisj hd.1 (by simp)
    rw [List.foldl_cons]
    have hset : dsetItem m hd.1 hd.2 = m ++ [(hd.1, hd.2)] :=
      dsetItem_append m hd.1 hd.2 hfresh
    have heta : (hd.1, hd.2) = hd := rfl
    rw [heta] at hset
    rw [hset, ih (m ++ [hd]) hnd2.2 ?_, List.append_assoc]
    · rfl
    · intro key hkey
      simp only [List.map_append, List.mem_append]
      push_neg
      refine ⟨fun hmem => hdisj key (by simp [hkey]) hmem, ?_⟩
      simp only [List.map_cons, List.map_nil, List.mem_singleton]
      intro hk1
      exact hnd2.1 (hk1 ▸ hkey)

/-- Helper: a value without a usable name is skipped by the per-value
insertion. -/
theorem insertNamed_eq_none (m : VDict) (v : CValue)
    (h : namedEntry v = Option.none) :
    insertNamed m v = m := by
  unfold namedEntry at h
  unfold insertNamed
  cases hv : v.name with
  | none => rfl
  | some s =>
    simp only [hv] at h
    by_cases hs : s = ""
    · simp [nameFalsy, hs]
    · rw [if_neg hs] at h
      exact absurd h (by simp)

/-- Helper: the per-value insertion of a usably named value is the
first-wins insertion of its entry. -/
theorem insertNamed_eq_some (m : VDict) (v : CValue) (e : String × CValue)
    (h : namedEntry v = some e) :
    insertNamed m v = insEntry m e := by
  unfold namedEntry at h
  cases hv : v.name with
  | none => simp [hv] at h
  | some s =>
    simp only [hv] at h
    by_cases hs : s = ""
    · rw [if_pos hs] at h
      exact absurd h (by simp)
    · rw [if_neg hs] at h
      injection h with h
      subst h
      unfold insertNamed insEntry
      have hnf : nameFalsy (some s) = false := by simp [nameFalsy, hs]
      by_cases hc : dcontains m s
      · simp [hv, hnf, hc]
      · have hnone : dlookup m s = Option.none := by
          unfold dcontains at hc
          cases hl : dlookup m s with
          | none => rfl
          | some w => rw [hl] at hc; simp at hc
        simp [hv, hnf, hc]
        exact dsetItem_append m s v ((dlookup_none_iff m s).mp hnone)

/-- Helper: folding the per-value insertion equals folding entry insertion
over the named entries. -/
theorem foldl_insertNamed (vs : List CValue) (m : VDict) :
    vs.foldl insertNamed m
      = (vs.filterMap namedEntry).foldl insEntry m := by
  induction vs generalizing m with
  | nil => rfl
  | cons v tl ih =>
    rw [List.foldl_cons]
    cases hv : namedEntry v with
    | none =>
      rw [List.filterMap_cons_none hv, insertNamed_eq_none m v hv]
      exact ih m
    | some e =>
      rw [List.filterMap_cons_some hv, insertNamed_eq_some m v e hv,
        List.foldl_cons]
      exact ih (insEntry m e)

/-- Helper: same for optional input slots (absent slots are skipped). -/
theorem foldl_insertNamedOpt (vos : List (Option CValue)) (m : VDict) :
    vos.foldl
        (fun m vo =>
          match vo with
          | some v => insertNamed m v
          | Option.none => m) m
      = (vos.filterMap fun vo => vo.bind namedEntry).foldl insEntry m := by
  induction vos generalizing m with
  | nil => rfl
  | cons vo tl ih =>
    rw [List.foldl_cons]
    cases vo with
    | none =>
      rw [List.filterMap_cons_none rfl]
      exact ih m
    | some v =>
      cases hv : namedEntry v with
      | none =>
        have hfm : List.filterMap (fun vo => Option.bind vo namedEntry)
              (some v :: tl)
            = List.filterMap (fun vo => Option.bind vo namedEntry) tl := by
          simp [hv]
        rw [hfm]
        show List.foldl _ (insertNamed m v) tl = _
        rw [insertNamed_eq_none m v hv]
        exact ih m
      | some e =>
        have hfm : List.filterMap (fun vo => Option.bind vo namedEntry)
              (some v :: tl)
            = e :: List.filterMap (fun vo => Option.bind vo namedEntry) tl := by
          simp [hv]
        rw [hfm, List.foldl_cons]
        show List.foldl _ (insertNamed m v) tl = _
        rw [insertNamed_eq_some m v e hv]
        exact ih (insEntry m e)

/-- Helper: the traversal loop folds entry insertion over the concatenated
node entries. -/
theorem foldl_nodes_eq (ns : List CNode) (m : VDict) :
    ns.foldl
        (fun m n =>
          n.outputs.foldl insertNamed
            (n.inputs.foldl
              (fun m vo =>
                match vo with
                | some v => insertNamed m v
                | Option.none => m) m)) m
      = (ns.flatMap nodeEntries).foldl insEntry m := by
  induction ns generalizing m with
  | nil => rfl
  | cons n tl ih =>
    rw [List.foldl_cons, ih, List.flatMap_cons, List.foldl_append,
      foldl_insertNamedOpt, foldl_insertNamed]
    unfold nodeEntries
    rw [List.foldl_append]

/-- Helper: `create_value_mapping` refines to entry insertion, in encounter
order, on top of the initializer dict. -/
theorem create_value_mapping_eq (g : CGraph)
    (hnd : (g.initializers.map Prod.fst).Nodup) :
    create_value_mapping g
      = (g.inputs.filterMap namedEntry
          ++ g.allNodes.flatMap nodeEntries).foldl insEntry
          g.initializers := by
  show g.allNodes.foldl
      (fun m n =>
        n.outputs.foldl insertNamed
          (n.inputs.foldl
            (fun m vo =>
              match vo with
              | some v => insertNamed m v
              | Option.none => m) m))
      (g.inputs.foldl insertNamed
        (g.initializers.foldl (fun m p => dsetItem m p.1 p.2) []))
    = _
  rw [foldl_dsetItem_append g.initializers [] hnd (by simp),
    List.nil_append, foldl_insertNamed, foldl_nodes_eq,
    List.foldl_append]

/-- Helper: lookup after an append checks the left dict first. -/
theorem dlookup_append (m1 m2 : VDict) (k : String) :
    dlookup (m1 ++ m2) k
      = match dlookup m1 k with
        | some v => some v
        | Option.none => dlookup m2 k := by
  induction m1 with
  | nil => rfl
  | cons hd tl ih =>
    by_cases hk : hd.1 = k
    · simp [dlookup, hk]
    · simp [dlookup, hk, ih]

/-- Helper: lookup is find-first by key. -/
theorem dlookup_eq_find (m : VDict) (k : String) :
    dlookup m k = (m.find? (fun q => q.1 == k)).map Prod.snd := by
  induction m with
  | nil => rfl
  | cons hd tl ih =>
    by_cases hk : hd.1 = k
    · simp [dlookup, List.find?, hk]
    · have hbeq : (hd.1 == k) = false := by simpa using hk
      simp [dlookup, List.find?, hk, hbeq, ih]

/-- Helper: lookup after first-wins insertion of an entry list — the left
dict still wins, then the first entry with the key. -/
theorem dlookup_foldl_insEntry (entries : List (String × CValue))
    (m0 : VDict) (k : String) :
    dlookup (entries.foldl insEntry m0) k
      = match dlookup m0 k with
        | some v => some v
        | Option.none =>
          (entries.find? (fun q => q.1 == k)).map Prod.snd := by
  induction entries generalizing m0 with
  | nil => cases h : dlookup m0 k <;> simp [h]
  | cons e tl ih =>
    rw [List.foldl_cons, ih]
    unfold insEntry
    by_cases hc : dcontains m0 e.1
    · rw [if_pos hc]
      cases hm : dlookup m0 k with
      | some v => simp
      | none =>
        have hek : e.1 ≠ k := by
          intro heq
          unfold dcontains at hc
          rw [heq, hm] at hc
          simp at hc
        have hbeq : (e.1 == k) = false := by simpa using hek
        simp [List.find?, hbeq]
    · rw [if_neg hc]
      rw [dlookup_append]
      cases hm : dlookup m0 k with
      | some v => simp
      | none =>
        by_cases hek : e.1 = k
        · have hlk : dlookup [e] k = some e.2 := by
            simp [dlookup, hek]
          rw [hlk]
          have hbeq : (e.1 == k) = true := by simpa using hek
          simp [List.find?, hbeq]
        · have hlk : dlookup [e] k = Option.none := by
            simp [dlookup, hek]
          rw [hlk]
          have hbeq : (e.1 == k) = false := by simpa using hek
          simp [List.find?, hbeq]

/-- Helper: everything in the built dict came from the start dict or from an
inserted entry. -/
theorem mem_foldl_insEntry (entries : List (String × CValue)) (m0 : VDict)
    (p : String × CValue) (hp : p ∈ entries.foldl insEntry m0) :
    p ∈ m0 ∨ p ∈ entries := by
  induction entries generalizing m0 with
  | nil => exact Or.inl hp
  | cons e tl ih =>
    rw [List.foldl_cons] at hp
    rcases ih (insEntry m0 e) hp with hm | ht
    · unfold insEntry at hm
      by_cases hc : dcontains m0 e.1
      · rw [if_pos hc] at hm
        exact Or.inl hm
      · rw [if_neg hc] at hm
        rcases List.mem_append.mp hm with hm0 | he
        · exact Or.inl hm0
        · right
          rw [List.mem_singleton.mp he]
          exact List.mem_cons_self _ _
    · exact Or.inr (List.mem_cons_of_mem _ ht)

/-- Helper: a named entry's key is never the empty string. -/
theorem namedEntry_key_ne (v : CValue) (e : String × CValue)
    (h : namedEntry v = some e) : e.1 ≠ "" := by
  unfold namedEntry at h
  cases hv : v.name with
  | none => simp [hv] at h
  | some s =>
    simp only [hv] at h
    by_cases hs : s = ""
    · rw [if_pos hs] at h
      exact absurd h (by simp)
    · rw [if_neg hs] at h
      injection h with h
      rw [← h]
      exact hs

/-- C5: for every graph whose initializer dict is well formed (string keys
are nonempty and, being a dict, pairwise distinct), `create_value_mapping`
contains no empty-string (and no absent) key, and it maps every name to the
first-encountered value for that name, initializers before graph inputs
before the values met during the recursive node traversal. -/
theorem c5_create_value_mapping (g : CGraph)
    (hkeys : ∀ p ∈ g.initializers, p.1 ≠ "")
    (hnd : (g.initializers.map Prod.fst).Nodup) :
    (∀ p ∈ create_value_mapping g, p.1 ≠ "")
  ∧ (∀ k, dlookup (create_value_mapping g) k
        = ((encounterList g).find? (fun q => q.1 == k)).map Prod.snd) := by
  rw [create_value_mapping_eq g hnd]
  constructor
  · intro p hp
    rcases mem_foldl_insEntry _ _ p hp with hinit | hent
    · exact hkeys p hinit
    · rcases List.mem_append.mp hent with hin | hnode
      · obtain ⟨v, _, hv⟩ := List.mem_filterMap.mp hin
        exact namedEntry_key_ne v p hv
      · obtain ⟨n, _, hmem⟩ := List.mem_flatMap.mp hnode
        unfold nodeEntries at hmem
        rcases List.mem_append.mp hmem with hi | ho
        · obtain ⟨vo, _, hvo⟩ := List.mem_filterMap.mp hi
          cases vo with
          | none => exact absurd hvo (by simp)
          | some v => exact namedEntry_key_ne v p (by simpa using hvo)
        · obtain ⟨v, _, hv⟩ := List.mem_filterMap.mp ho
          exact namedEntry_key_ne v p hv
  · intro k
    rw [dlookup_foldl_insEntry]
    unfold encounterList
    rw [List.find?_append, dlookup_eq_find g.initializers k]
    cases hf : g.initializers.find? (fun q => q.1 == k) with
    | some q => simp [hf]
    | none => simp [hf]

/-- C5 (witness): a concrete graph — an initializer `w`, an input also named
`w` (losing to the initializer) and an unnamed input, a node whose subgraph
node consumes `x` and produces `z` — satisfies both conclusions. -/
theorem c5_create_value_mapping_witness :
    (∀ p ∈ create_value_mapping
        (.mk [("w", ⟨0, some "w"⟩)]
          [⟨1, some "w"⟩, ⟨2, Option.none⟩]
          [.mk [some ⟨3, some "x"⟩] [⟨4, some "y"⟩]
            [.mk [] [] [.mk [some ⟨5, some "x"⟩] [⟨6, some "z"⟩] []]]]),
        p.1 ≠ "")
  ∧ (∀ k, dlookup (create_value_mapping
        (.mk [("w", ⟨0, some "w"⟩)]
          [⟨1, some "w"⟩, ⟨2, Option.none⟩]
          [.mk [some ⟨3, some "x"⟩] [⟨4, some "y"⟩]
            [.mk [] [] [.mk [some ⟨5, some "x"⟩] [⟨6, some "z"⟩] []]]])) k
      = ((encounterList
          (.mk [("w", ⟨0, some "w"⟩)]
            [⟨1, some "w"⟩, ⟨2, Option.none⟩]
            [.mk [some ⟨3, some "x"⟩] [⟨4, some "y"⟩]
              [.mk [] [] [.mk [some ⟨5, some "x"⟩] [⟨6, some "z"⟩] []]]])).find?
          (fun q => q.1 == k)).map Prod.snd) :=
  c5_create_value_mapping _ (by decide) (by decide)

end OnnxIR
